import Mathlib

/-!
Verification of the FIRST/FOLLOW computation of `main.py`.

A Python string is embedded as a Lean `String`; iterating over a Python string
yields its characters, embedded through `String.data : String → List Char`.
Python sets of strings are `Finset String`; the dictionaries mapping
non-terminal names to sets are embedded as total functions `String → Finset
String` (default `∅`), updated pointwise, and the grammar dictionary (whose
insertion order is significant) as an association list.
-/

namespace GLC

/-- A Python dict of sets of symbols, made total with default `∅`. -/
abbrev M := String → Finset String

/-- Pointwise update of a mapping, modelling `d[k] = v` on a Python dict. -/
def upd (m : M) (k : String) (v : Finset String) : M :=
  fun x => if x = k then v else m x

/-- The one-character string holding `c`: a Python character is a string. -/
def charStr (c : Char) : String := String.mk [c]

/-- main.py line 3: the fixed vocabulary of multi-character atomic terminal
tokens. -/
def special_symbols : Finset String :=
  {"epsilon", "id", "or", "not", "and", "true", "false"}

/-- A grammar: insertion-ordered mapping from non-terminal name to its list of
productions, each production a raw string (main.py keeps `grammar` as a dict
built in declaration order). -/
abbrev Grammar := List (String × List String)

/-- The declared non-terminals: the key set of the grammar (main.py line 40). -/
def keyFinset (g : Grammar) : Finset String := (g.map Prod.fst).toFinset

/-- main.py lines 46-53: the character loop of one production inside
`extract_non_terminals_and_terminals`.  When the whole production is a special
token it is inserted as one atomic terminal; otherwise each character that is
neither a declared non-terminal nor uppercase is inserted.  (`str.isupper` on a
single character agrees with `Char.isUpper` on the ASCII alphabets used by the
grammar notation.) -/
def extractProd (nts : Finset String) (p : String) : List Char → Finset String → Finset String
  | [], ts => ts
  | c :: cs, ts =>
    extractProd nts p cs
      (if p ∈ special_symbols then insert p ts
       else if charStr c ∉ nts ∧ c.isUpper = false then insert (charStr c) ts
       else ts)

/-- main.py line 45: loop over the alternative productions of one entry. -/
def extractProds (nts : Finset String) : List String → Finset String → Finset String
  | [], ts => ts
  | p :: ps, ts => extractProds nts ps (extractProd nts p p.data ts)

/-- main.py line 44: loop over `grammar.values()` in declaration order. -/
def extractEntries (nts : Finset String) : Grammar → Finset String → Finset String
  | [], ts => ts
  | e :: es, ts => extractEntries nts es (extractProds nts e.2 ts)

/-- main.py lines 30-54: `extract_non_terminals_and_terminals(grammar)`. -/
def extract_non_terminals_and_terminals (g : Grammar) : Finset String × Finset String :=
  (keyFinset g, extractEntries (keyFinset g) g ∅)

/-- The symbol examined at one scan position of `first` (main.py lines 83-86):
the whole production when the production is a special token, otherwise the
character at the current index. -/
def symAt (p : String) (c : Char) : String :=
  if p ∈ special_symbols then p else charStr c

/-- main.py lines 94-97: `firsts[non_terminal].update(firsts[symbol] -
{'epsilon'})` for the non-terminal `x` currently scanned inside `nt`'s
production. -/
def firstUpd (m : M) (nt x : String) : M :=
  upd m nt (m nt ∪ (m x \ {"epsilon"}))

/-- main.py lines 95-99: the `changes` flag after comparing `len` before and
after the update. -/
def firstFlag (m : M) (nt x : String) (ch : Bool) : Bool :=
  if (m nt).card ≠ (firstUpd m nt x nt).card then true else ch

/-- main.py lines 81-107: the `while i < len(production)` scan of one
production inside the fixed-point loop of `first`, with Python's `while … else`
adding `epsilon` when the scan runs off the end without `break`.  Returns the
updated FIRST mapping together with the `changes` flag. -/
def scanFirst (terms nts : Finset String) (p nt : String) : M → Bool → List Char → M × Bool
  | m, ch, [] =>
    if "epsilon" ∈ m nt then (m, ch)
    else (upd m nt (insert "epsilon" (m nt)), true)
  | m, ch, c :: cs =>
    if symAt p c ∈ terms then
      if symAt p c ∈ m nt then (m, ch)
      else (upd m nt (insert (symAt p c) (m nt)), true)
    else if symAt p c ∈ nts then
      if "epsilon" ∈ firstUpd m nt (symAt p c) (symAt p c) then
        scanFirst terms nts p nt (firstUpd m nt (symAt p c)) (firstFlag m nt (symAt p c) ch) cs
      else (firstUpd m nt (symAt p c), firstFlag m nt (symAt p c) ch)
    else scanFirst terms nts p nt m ch cs

/-- main.py line 80: loop over the productions of one non-terminal. -/
def firstProds (terms nts : Finset String) (nt : String) : List String → M → Bool → M × Bool
  | [], m, ch => (m, ch)
  | p :: ps, m, ch =>
    let r := scanFirst terms nts p nt m ch p.data
    firstProds terms nts nt ps r.1 r.2

/-- main.py line 79: loop over the grammar entries in declaration order. -/
def firstEntries (terms nts : Finset String) : Grammar → M → Bool → M × Bool
  | [], m, ch => (m, ch)
  | e :: es, m, ch =>
    let r := firstProds terms nts e.1 e.2 m ch
    firstEntries terms nts es r.1 r.2

/-- One full pass of the fixed-point loop of `first` (main.py lines 78-107),
starting from `changes = False` as reset at line 78. -/
def firstPass (terms nts : Finset String) (g : Grammar) (m : M) : M × Bool :=
  firstEntries terms nts g m false

/-- main.py lines 70-73: the initialization that pre-adds `production[0]`
whenever it is a terminal (note: the raw first character, with no special-token
override). -/
def firstInitProds (terms : Finset String) (nt : String) : List String → M → M
  | [], m => m
  | p :: ps, m =>
    firstInitProds terms nt ps
      (match p.data with
       | [] => m
       | c :: _ => if charStr c ∈ terms then upd m nt (insert (charStr c) (m nt)) else m)

/-- main.py lines 70-73, outer loop over the grammar entries. -/
def firstInit (terms : Finset String) : Grammar → M → M
  | [], m => m
  | e :: es, m => firstInit terms es (firstInitProds terms e.1 e.2 m)

/-- The `while changes` loop of `first` (main.py lines 76-107) as a fuelled
iteration: the loop body runs while the pass reports a change.  The fuel
`firstFuel` is large enough that the iteration always reaches a pass that
changes nothing (proved below), so this equals the Python while loop. -/
def firstLoop (terms nts : Finset String) (g : Grammar) : Nat → M → M
  | 0, m => m
  | fuel + 1, m =>
    let r := firstPass terms nts g m
    if r.2 then firstLoop terms nts g fuel r.1 else r.1

/-- Sufficient pass budget for the `first` fixed point: every tracked set is
bounded by the terminal vocabulary plus `epsilon`, and a changing pass strictly
grows the total size. -/
def firstFuel (g : Grammar) : Nat :=
  g.length * (insert "epsilon" (extract_non_terminals_and_terminals g).2).card + 1

/-- main.py lines 56-109: `first(grammar)`.  The returned dict of lists is
embedded as the final mapping of sets (the claims compare results as sets). -/
def first (g : Grammar) : M :=
  firstLoop (extract_non_terminals_and_terminals g).2 (extract_non_terminals_and_terminals g).1 g
    (firstFuel g) (firstInit (extract_non_terminals_and_terminals g).2 g (fun _ => ∅))

/-- main.py lines 130-132: `follows[symbol].update(firsts[next_symbol])`
followed by the immediate removal of `epsilon` when present. -/
def walkUpd (firsts : M) (f : Finset String) (x : String) : Finset String :=
  if "epsilon" ∈ f ∪ firsts x then (f ∪ firsts x).erase "epsilon"
  else f ∪ firsts x

/-- main.py lines 126-139: the forward walk `while j < len(production)` over
the symbols to the right of an occurrence.  `f` is the FOLLOW set of the
occurrence; the returned flag is `j == len(production)`, i.e. whether the walk
exhausted the production without `break`. -/
def followWalk (nts : Finset String) (firsts : M) : Finset String → List Char → Finset String × Bool
  | f, [] => (f, true)
  | f, c :: cs =>
    if charStr c ∈ nts then
      if "epsilon" ∈ firsts (charStr c) then followWalk nts firsts (walkUpd firsts f (charStr c)) cs
      else (walkUpd firsts f (charStr c), false)
    else (insert (charStr c) f, false)

/-- main.py lines 142-144: when the forward walk exhausted the production, the
left-hand side's FOLLOW set is merged into the occurrence's (the guarded
`changes = True` is dead, `set.update` returning `None`). -/
def followExhaust (nt : String) (fl : M) (x : String) (exhausted : Bool) : M :=
  if exhausted then upd fl x (fl x ∪ fl nt) else fl

/-- main.py lines 147-149: when the occurrence is the last symbol of the
production, the left-hand side's FOLLOW set is merged into the occurrence's
(the guarded `changes = True` is again dead). -/
def followLast (nt : String) (fl : M) (x : String) (cs : List Char) : M :=
  if cs = [] then upd fl x (fl x ∪ fl nt) else fl

/-- main.py lines 124-149: processing of one non-terminal occurrence `x` with
the remainder `cs` of the production to its right: forward walk, then the two
left-hand side merges. -/
def followStepNT (nts : Finset String) (firsts : M) (nt : String) (fl : M) (x : String)
    (cs : List Char) : M :=
  followLast nt
    (followExhaust nt (upd fl x (followWalk nts firsts (fl x) cs).1) x
      (followWalk nts firsts (fl x) cs).2)
    x cs

/-- main.py line 124: a position holding anything but a non-terminal is
ignored. -/
def followStep (nts : Finset String) (firsts : M) (nt : String) (fl : M) (c : Char)
    (cs : List Char) : M :=
  if charStr c ∈ nts then followStepNT nts firsts nt fl (charStr c) cs else fl

/-- main.py lines 123-149: `for i, symbol in enumerate(production)` inside the
pass of `follow`. -/
def followScan (nts : Finset String) (firsts : M) (nt : String) : M → List Char → M
  | fl, [] => fl
  | fl, c :: cs => followScan nts firsts nt (followStep nts firsts nt fl c cs) cs

/-- main.py line 122: loop over the productions of one non-terminal. -/
def followProds (nts : Finset String) (firsts : M) (nt : String) : List String → M → M
  | [], fl => fl
  | p :: ps, fl => followProds nts firsts nt ps (followScan nts firsts nt fl p.data)

/-- main.py line 121: loop over the grammar entries in declaration order. -/
def followEntries (nts : Finset String) (firsts : M) : Grammar → M → M
  | [], fl => fl
  | e :: es, fl => followEntries nts firsts es (followProds nts firsts e.1 e.2 fl)

/-- One pass of the `while changes` loop of `follow` (main.py lines 120-149)
together with the `changes` flag it produces.  The only two statements that
could set the flag (lines 143-144 and 147-149) guard `changes = True` on the
return value of `set.update`, which is `None` and therefore always falsy, so
the flag reset at line 120 survives every pass unchanged. -/
def followPass (nts : Finset String) (firsts : M) (g : Grammar) (fl : M) : M × Bool :=
  (followEntries nts firsts g fl, false)

/-- main.py line 114: `next(iter(grammar))`, the first declared non-terminal
(undefined on an empty grammar, where Python would raise StopIteration). -/
def start_symbol : Grammar → String
  | [] => ""
  | e :: _ => e.1

/-- main.py lines 113-115: every FOLLOW set starts empty except the start
symbol, seeded with the end-of-input marker. -/
def followInit (g : Grammar) : M := upd (fun _ => ∅) (start_symbol g) {"$"}

/-- The `while changes` loop of `follow` (main.py lines 118-149) as a fuelled
iteration; since `followPass` never reports a change the loop body runs exactly
once for any positive fuel. -/
def followLoop (nts : Finset String) (firsts : M) (g : Grammar) : Nat → M → M
  | 0, fl => fl
  | fuel + 1, fl =>
    let r := followPass nts firsts g fl
    if r.2 then followLoop nts firsts g fuel r.1 else r.1

/-- Pass budget for the `follow` loop; any positive value yields the same
result because the changes flag is never set. -/
def followFuel (g : Grammar) : Nat := g.length + 1

/-- main.py lines 111-151: `follow(grammar, firsts)`. -/
def follow (g : Grammar) (firsts : M) : M :=
  followLoop (extract_non_terminals_and_terminals g).1 firsts g (followFuel g) (followInit g)

/-- Total size of the tracked sets over a list of keys: the termination
measure of the fixed-point loop of `first` (a changing pass strictly grows
it, and it is bounded by the vocabulary). -/
def mu (L : List String) (m : M) : Nat := (L.map fun k => (m k).card).sum

/-- Modelled from the spec: §4.2 of the design describes `computeFirst` as the
pure fixed point of the left-to-right production scan, with step 1 reading
“Initialize every non-terminal's FIRST set to empty” — it has no counterpart of
the code's direct-terminal pre-initialization (main.py lines 70-73), which is
therefore omitted here; the iterated pass is the same scan the code runs. -/
def first_spec (g : Grammar) : M :=
  firstLoop (extract_non_terminals_and_terminals g).2 (extract_non_terminals_and_terminals g).1 g
    (firstFuel g) (fun _ => ∅)

/-- Example 1 of the spec: `{ S -> A B, A -> a | epsilon, B -> b }`. -/
def exampleGrammar1 : Grammar := [("S", ["AB"]), ("A", ["a", "epsilon"]), ("B", ["b"])]

/-- A grammar whose least FOLLOW fixed point needs a second pass: the
productions `C -> A c` and `A -> B` are processed in an order that feeds
FOLLOW(A) only after the production that should copy it into FOLLOW(B). -/
def passGrammar : Grammar := [("S", ["C"]), ("A", ["B"]), ("C", ["Ac"]), ("B", ["b"])]

/-- A grammar where the first character of the special token `id` is itself a
terminal of the grammar (contributed by the production `I -> i`). -/
def idCharGrammar : Grammar := [("S", ["id"]), ("I", ["i"])]

/-- A grammar where the first character of the special token `epsilon` is
itself a terminal of the grammar (contributed by the production `E -> e`). -/
def epsCharGrammar : Grammar := [("S", ["epsilon"]), ("E", ["e"])]

/-- Example 2 of the spec: `{ S -> id }`. -/
def exampleGrammar2 : Grammar := [("S", ["id"])]

/-- A grammar referencing the undeclared non-terminal `X`. -/
def undeclaredGrammar : Grammar := [("S", ["X"])]

theorem upd_self (m : M) (k : String) : upd m k (m k) = m := by
  funext x
  by_cases h : x = k <;> simp [upd, h]

theorem subset_upd (m : M) (nt : String) (v : Finset String) (h : m nt ⊆ v) (k : String) :
    m k ⊆ upd m nt v k := by
  by_cases hk : k = nt
  · subst hk; simpa [upd] using h
  · simp [upd, hk]

theorem charStr_ne_epsilon (c : Char) : charStr c ≠ "epsilon" := by
  intro h
  have h2 : ([c] : List Char).length = "epsilon".data.length :=
    congrArg (fun s => s.data.length) h
  have h3 : (1 : Nat) = "epsilon".data.length := h2
  exact absurd h3 (by decide)

theorem walkUpd_epsFree (firsts : M) (f : Finset String) (x : String) :
    "epsilon" ∉ walkUpd firsts f x := by
  by_cases h : "epsilon" ∈ f ∪ firsts x <;> simp [walkUpd, h]

theorem walkUpd_subset (firsts : M) (f : Finset String) (x : String) (h : "epsilon" ∉ f) :
    f ⊆ walkUpd firsts f x := by
  intro s hs
  have hsne : s ≠ "epsilon" := fun he => h (he ▸ hs)
  by_cases hm : "epsilon" ∈ f ∪ firsts x <;>
    simp [walkUpd, hm, Finset.mem_erase, Finset.mem_union, hsne]
  · exact Or.inl hs
  · exact Or.inl hs

theorem followWalk_epsFree (nts : Finset String) (firsts : M) :
    ∀ cs (f : Finset String), "epsilon" ∉ f → "epsilon" ∉ (followWalk nts firsts f cs).1 := by
  intro cs
  induction cs with
  | nil => intro f hf; simpa [followWalk] using hf
  | cons c cs ih =>
    intro f hf
    by_cases h1 : charStr c ∈ nts
    · by_cases h2 : "epsilon" ∈ firsts (charStr c) <;> simp [followWalk, h1, h2]
      · exact ih _ (walkUpd_epsFree firsts f (charStr c))
      · exact walkUpd_epsFree firsts f (charStr c)
    · simp [followWalk, h1, Finset.mem_insert, hf]
      exact fun he => charStr_ne_epsilon c he.symm

theorem followWalk_subset (nts : Finset String) (firsts : M) :
    ∀ cs (f : Finset String), "epsilon" ∉ f → f ⊆ (followWalk nts firsts f cs).1 := by
  intro cs
  induction cs with
  | nil => intro f _; simp [followWalk]
  | cons c cs ih =>
    intro f hf
    by_cases h1 : charStr c ∈ nts
    · by_cases h2 : "epsilon" ∈ firsts (charStr c) <;> simp [followWalk, h1, h2]
      · exact (walkUpd_subset firsts f (charStr c) hf).trans
          (ih _ (walkUpd_epsFree firsts f (charStr c)))
      · exact walkUpd_subset firsts f (charStr c) hf
    · simp [followWalk, h1]

theorem followExhaust_subset (nt : String) (fl : M) (x : String) (b : Bool) (k : String) :
    fl k ⊆ followExhaust nt fl x b k := by
  cases b <;> simp [followExhaust]
  exact subset_upd fl x _ (Finset.subset_union_left) k

theorem followExhaust_epsFree (nt : String) (fl : M) (x : String) (b : Bool)
    (hfl : ∀ j, "epsilon" ∉ fl j) (k : String) : "epsilon" ∉ followExhaust nt fl x b k := by
  cases b <;> by_cases hk : k = x <;> simp [followExhaust, upd, hk, hfl]

theorem followLast_subset (nt : String) (fl : M) (x : String) (cs : List Char) (k : String) :
    fl k ⊆ followLast nt fl x cs k := by
  by_cases h : cs = [] <;> simp [followLast, h]
  exact subset_upd fl x _ (Finset.subset_union_left) k

theorem followLast_epsFree (nt : String) (fl : M) (x : String) (cs : List Char)
    (hfl : ∀ j, "epsilon" ∉ fl j) (k : String) : "epsilon" ∉ followLast nt fl x cs k := by
  by_cases h : cs = [] <;> by_cases hk : k = x <;> simp [followLast, h, upd, hk, hfl]

theorem followStepNT_subset (nts : Finset String) (firsts : M) (nt : String) (fl : M)
    (x : String) (cs : List Char) (hfl : ∀ j, "epsilon" ∉ fl j) (k : String) :
    fl k ⊆ followStepNT nts firsts nt fl x cs k := by
  unfold followStepNT
  refine Finset.Subset.trans ?_ (Finset.Subset.trans
    (followExhaust_subset nt _ x _ k) (followLast_subset nt _ x cs k))
  exact subset_upd fl x _ (followWalk_subset nts firsts cs (fl x) (hfl x)) k

theorem followStepNT_epsFree (nts : Finset String) (firsts : M) (nt : String) (fl : M)
    (x : String) (cs : List Char) (hfl : ∀ j, "epsilon" ∉ fl j) (k : String) :
    "epsilon" ∉ followStepNT nts firsts nt fl x cs k := by
  unfold followStepNT
  apply followLast_epsFree
  apply followExhaust_epsFree
  intro j
  by_cases hj : j = x <;> simp [upd, hj, hfl]
  exact followWalk_epsFree nts firsts cs (fl x) (hfl x)

theorem followStep_subset (nts : Finset String) (firsts : M) (nt : String) (fl : M)
    (c : Char) (cs : List Char) (hfl : ∀ j, "epsilon" ∉ fl j) (k : String) :
    fl k ⊆ followStep nts firsts nt fl c cs k := by
  unfold followStep
  split
  · exact followStepNT_subset nts firsts nt fl _ cs hfl k
  · exact Finset.Subset.refl _

theorem followStep_epsFree (nts : Finset String) (firsts : M) (nt : String) (fl : M)
    (c : Char) (cs : List Char) (hfl : ∀ j, "epsilon" ∉ fl j) (k : String) :
    "epsilon" ∉ followStep nts firsts nt fl c cs k := by
  unfold followStep
  split
  · exact followStepNT_epsFree nts firsts nt fl _ cs hfl k
  · exact hfl k

theorem followScan_epsFree (nts : Finset String) (firsts : M) (nt : String) :
    ∀ cs (fl : M), (∀ j, "epsilon" ∉ fl j) → ∀ k, "epsilon" ∉ followScan nts firsts nt fl cs k := by
  intro cs
  induction cs with
  | nil => intro fl hfl k; simpa [followScan] using hfl k
  | cons c cs ih =>
    intro fl hfl k
    simp only [followScan]
    exact ih _ (fun j => followStep_epsFree nts firsts nt fl c cs hfl j) k

theorem followScan_subset (nts : Finset String) (firsts : M) (nt : String) :
    ∀ cs (fl : M), (∀ j, "epsilon" ∉ fl j) → ∀ k, fl k ⊆ followScan nts firsts nt fl cs k := by
  intro cs
  induction cs with
  | nil => intro fl _ k; simp [followScan]
  | cons c cs ih =>
    intro fl hfl k
    simp only [followScan]
    exact (followStep_subset nts firsts nt fl c cs hfl k).trans
      (ih _ (fun j => followStep_epsFree nts firsts nt fl c cs hfl j) k)

theorem followProds_epsFree (nts : Finset String) (firsts : M) (nt : String) :
    ∀ ps (fl : M), (∀ j, "epsilon" ∉ fl j) → ∀ k, "epsilon" ∉ followProds nts firsts nt ps fl k := by
  intro ps
  induction ps with
  | nil => intro fl hfl k; simpa [followProds] using hfl k
  | cons p ps ih =>
    intro fl hfl k
    simp only [followProds]
    exact ih _ (fun j => followScan_epsFree nts firsts nt p.data fl hfl j) k

theorem followProds_subset (nts : Finset String) (firsts : M) (nt : String) :
    ∀ ps (fl : M), (∀ j, "epsilon" ∉ fl j) → ∀ k, fl k ⊆ followProds nts firsts nt ps fl k := by
  intro ps
  induction ps with
  | nil => intro fl _ k; simp [followProds]
  | cons p ps ih =>
    intro fl hfl k
    simp only [followProds]
    exact (followScan_subset nts firsts nt p.data fl hfl k).trans
      (ih _ (fun j => followScan_epsFree nts firsts nt p.data fl hfl j) k)

theorem followEntries_epsFree (nts : Finset String) (firsts : M) :
    ∀ (g : Grammar) (fl : M), (∀ j, "epsilon" ∉ fl j) →
      ∀ k, "epsilon" ∉ followEntries nts firsts g fl k := by
  intro g
  induction g with
  | nil => intro fl hfl k; simpa [followEntries] using hfl k
  | cons e es ih =>
    intro fl hfl k
    simp only [followEntries]
    exact ih _ (fun j => followProds_epsFree nts firsts e.1 e.2 fl hfl j) k

theorem followEntries_subset (nts : Finset String) (firsts : M) :
    ∀ (g : Grammar) (fl : M), (∀ j, "epsilon" ∉ fl j) →
      ∀ k, fl k ⊆ followEntries nts firsts g fl k := by
  intro g
  induction g with
  | nil => intro fl _ k; simp [followEntries]
  | cons e es ih =>
    intro fl hfl k
    simp only [followEntries]
    exact (followProds_subset nts firsts e.1 e.2 fl hfl k).trans
      (ih _ (fun j => followProds_epsFree nts firsts e.1 e.2 fl hfl j) k)

theorem followInit_epsFree (g : Grammar) : ∀ k, "epsilon" ∉ followInit g k := by
  intro k
  by_cases h : k = start_symbol g <;> simp [followInit, upd, h]

theorem follow_eq_pass (g : Grammar) (firsts : M) :
    follow g firsts =
      followEntries (extract_non_terminals_and_terminals g).1 firsts g (followInit g) := by
  simp [follow, followFuel, followLoop, followPass]

theorem firstUpd_subset (m : M) (nt x : String) (k : String) : m k ⊆ firstUpd m nt x k :=
  subset_upd m nt _ Finset.subset_union_left k

theorem scanFirst_subset (terms nts : Finset String) (p nt : String) :
    ∀ cs (m : M) (ch : Bool) (k : String), m k ⊆ (scanFirst terms nts p nt m ch cs).1 k := by
  intro cs
  induction cs with
  | nil =>
    intro m ch k
    by_cases h : "epsilon" ∈ m nt <;> simp [scanFirst, h]
    exact subset_upd m nt _ (Finset.subset_insert _ _) k
  | cons c cs ih =>
    intro m ch k
    by_cases h1 : symAt p c ∈ terms
    · by_cases h2 : symAt p c ∈ m nt <;> simp [scanFirst, h1, h2]
      exact subset_upd m nt _ (Finset.subset_insert _ _) k
    · by_cases h3 : symAt p c ∈ nts
      · by_cases h4 : "epsilon" ∈ firstUpd m nt (symAt p c) (symAt p c) <;>
          simp [scanFirst, h1, h3, h4]
        · exact (firstUpd_subset m nt _ k).trans (ih _ _ k)
        · exact firstUpd_subset m nt _ k
      · simp only [scanFirst, if_neg h1, if_neg h3]
        exact ih m ch k

theorem firstProds_subset (terms nts : Finset String) (nt : String) :
    ∀ ps (m : M) (ch : Bool) (k : String), m k ⊆ (firstProds terms nts nt ps m ch).1 k := by
  intro ps
  induction ps with
  | nil => intro m ch k; simp [firstProds]
  | cons p ps ih =>
    intro m ch k
    simp only [firstProds]
    exact (scanFirst_subset terms nts p nt p.data m ch k).trans (ih _ _ k)

theorem firstEntries_subset (terms nts : Finset String) :
    ∀ (g : Grammar) (m : M) (ch : Bool) (k : String),
      m k ⊆ (firstEntries terms nts g m ch).1 k := by
  intro g
  induction g with
  | nil => intro m ch k; simp [firstEntries]
  | cons e es ih =>
    intro m ch k
    simp only [firstEntries]
    exact (firstProds_subset terms nts e.1 e.2 m ch k).trans (ih _ _ k)

theorem upd_same (m : M) (k : String) (v : Finset String) : upd m k v k = v := by
  simp [upd]

theorem upd_other (m : M) (k : String) (v : Finset String) (x : String) (h : x ≠ k) :
    upd m k v x = m x := by
  simp [upd, h]

theorem upd_inv (m : M) (nt : String) (v : Finset String) (V : Finset String)
    (hm : ∀ k, m k ⊆ V) (hv : v ⊆ V) : ∀ k, upd m nt v k ⊆ V := by
  intro k
  by_cases hk : k = nt <;> simp [upd, hk, hv, hm]

theorem firstUpd_same (m : M) (nt x : String) :
    firstUpd m nt x nt = m nt ∪ (m x \ {"epsilon"}) :=
  upd_same m nt _

theorem firstFlag_false (m : M) (nt x : String) (ch : Bool) (h : firstFlag m nt x ch = false) :
    firstUpd m nt x = m ∧ ch = false := by
  unfold firstFlag at h
  by_cases hc : (m nt).card ≠ (firstUpd m nt x nt).card
  · simp [hc] at h
  · simp only [hc, if_false, ite_false] at h
    refine ⟨?_, by simpa using h⟩
    have hcard : (m nt).card = (firstUpd m nt x nt).card := not_not.mp hc
    have heq : m nt = m nt ∪ (m x \ {"epsilon"}) :=
      Finset.eq_of_subset_of_card_le Finset.subset_union_left
        (by rw [← firstUpd_same m nt x]; exact hcard.ge)
    calc firstUpd m nt x = upd m nt (m nt ∪ (m x \ {"epsilon"})) := rfl
      _ = upd m nt (m nt) := by rw [← heq]
      _ = m := upd_self m nt

theorem firstFlag_true (m : M) (nt x : String) (ch : Bool) (h : firstFlag m nt x ch = true) :
    ch = true ∨ (m nt).card < (firstUpd m nt x nt).card := by
  unfold firstFlag at h
  by_cases hc : (m nt).card ≠ (firstUpd m nt x nt).card
  · right
    have hle : (m nt).card ≤ (firstUpd m nt x nt).card := by
      rw [firstUpd_same]
      exact Finset.card_le_card Finset.subset_union_left
    omega
  · simp only [hc, if_false, ite_false] at h
    exact Or.inl (by simpa using h)

theorem scanFirst_flag_false (terms nts : Finset String) (p nt : String) :
    ∀ cs (m : M) (ch : Bool), (scanFirst terms nts p nt m ch cs).2 = false →
      (scanFirst terms nts p nt m ch cs).1 = m ∧ ch = false := by
  intro cs
  induction cs with
  | nil =>
    intro m ch h
    by_cases he : "epsilon" ∈ m nt <;> simp [scanFirst, he] at h ⊢
    exact h
  | cons c cs ih =>
    intro m ch h
    by_cases h1 : symAt p c ∈ terms
    · by_cases h2 : symAt p c ∈ m nt <;> simp [scanFirst, h1, h2] at h ⊢
      exact h
    · by_cases h3 : symAt p c ∈ nts
      · by_cases h4 : "epsilon" ∈ firstUpd m nt (symAt p c) (symAt p c) <;>
          simp only [scanFirst, if_neg h1, if_pos h3, h4, if_true, if_false, ite_true,
            ite_false] at h ⊢
        · obtain ⟨hm, hf⟩ := ih _ _ h
          obtain ⟨hu, hch⟩ := firstFlag_false m nt (symAt p c) ch hf
          exact ⟨hm.trans hu, hch⟩
        · obtain ⟨hu, hch⟩ := firstFlag_false m nt (symAt p c) ch h
          exact ⟨hu, hch⟩
      · simp only [scanFirst, if_neg h1, if_neg h3] at h ⊢
        exact ih m ch h

theorem scanFirst_flag_true (terms nts : Finset String) (p nt : String) :
    ∀ cs (m : M) (ch : Bool), (scanFirst terms nts p nt m ch cs).2 = true →
      ch = true ∨ (m nt).card < ((scanFirst terms nts p nt m ch cs).1 nt).card := by
  intro cs
  induction cs with
  | nil =>
    intro m ch h
    by_cases he : "epsilon" ∈ m nt <;> simp [scanFirst, he] at h ⊢
    · exact h
    · right
      rw [upd_same, Finset.card_insert_of_not_mem he]
      omega
  | cons c cs ih =>
    intro m ch h
    by_cases h1 : symAt p c ∈ terms
    · by_cases h2 : symAt p c ∈ m nt <;> simp [scanFirst, h1, h2] at h ⊢
      · exact h
      · right
        rw [upd_same, Finset.card_insert_of_not_mem h2]
        omega
    · by_cases h3 : symAt p c ∈ nts
      · by_cases h4 : "epsilon" ∈ firstUpd m nt (symAt p c) (symAt p c) <;>
          simp only [scanFirst, if_neg h1, if_pos h3, h4, if_true, if_false, ite_true,
            ite_false] at h ⊢
        · rcases ih _ _ h with hf | hlt
          · rcases firstFlag_true m nt (symAt p c) ch hf with hch | hlt2
            · exact Or.inl hch
            · right
              have hmono := scanFirst_subset terms nts p nt cs (firstUpd m nt (symAt p c))
                (firstFlag m nt (symAt p c) ch) nt
              exact hlt2.trans_le (Finset.card_le_card hmono)
          · right
            have hle : (m nt).card ≤ (firstUpd m nt (symAt p c) nt).card := by
              rw [firstUpd_same]
              exact Finset.card_le_card Finset.subset_union_left
            omega
        · rcases firstFlag_true m nt (symAt p c) ch h with hch | hlt
          · exact Or.inl hch
          · exact Or.inr hlt
      · simp only [scanFirst, if_neg h1, if_neg h3] at h ⊢
        exact ih m ch h

theorem firstProds_flag_false (terms nts : Finset String) (nt : String) :
    ∀ ps (m : M) (ch : Bool), (firstProds terms nts nt ps m ch).2 = false →
      (firstProds terms nts nt ps m ch).1 = m ∧ ch = false := by
  intro ps
  induction ps with
  | nil => intro m ch h; exact ⟨rfl, h⟩
  | cons p ps ih =>
    intro m ch h
    simp only [firstProds] at h ⊢
    obtain ⟨hm, hf⟩ := ih _ _ h
    obtain ⟨hm2, hch⟩ := scanFirst_flag_false terms nts p nt p.data m ch hf
    exact ⟨hm.trans hm2, hch⟩

theorem firstProds_flag_true (terms nts : Finset String) (nt : String) :
    ∀ ps (m : M) (ch : Bool), (firstProds terms nts nt ps m ch).2 = true →
      ch = true ∨ (m nt).card < ((firstProds terms nts nt ps m ch).1 nt).card := by
  intro ps
  induction ps with
  | nil => intro m ch h; exact Or.inl h
  | cons p ps ih =>
    intro m ch h
    simp only [firstProds] at h ⊢
    rcases ih _ _ h with hf | hlt
    · rcases scanFirst_flag_true terms nts p nt p.data m ch hf with hch | hlt2
      · exact Or.inl hch
      · right
        have hmono := firstProds_subset terms nts nt ps (scanFirst terms nts p nt m ch p.data).1
          (scanFirst terms nts p nt m ch p.data).2 nt
        exact hlt2.trans_le (Finset.card_le_card hmono)
    · right
      have hle := Finset.card_le_card (scanFirst_subset terms nts p nt p.data m ch nt)
      omega

theorem mu_mono (m m' : M) (h : ∀ k, m k ⊆ m' k) : ∀ L, mu L m ≤ mu L m' := by
  intro L
  induction L with
  | nil => simp [mu]
  | cons a L ih =>
    simp only [mu, List.map_cons, List.sum_cons] at ih ⊢
    exact Nat.add_le_add (Finset.card_le_card (h a)) ih

theorem mu_lt (m m' : M) (h : ∀ k, m k ⊆ m' k) :
    ∀ (L : List String) (k0 : String), k0 ∈ L → (m k0).card < (m' k0).card →
      mu L m < mu L m' := by
  intro L
  induction L with
  | nil => intro k0 hk0 _; cases hk0
  | cons a L ih =>
    intro k0 hk0 hlt
    simp only [mu, List.map_cons, List.sum_cons]
    rcases List.mem_cons.mp hk0 with h1 | h1
    · subst h1
      exact Nat.add_lt_add_of_lt_of_le hlt (mu_mono m m' h L)
    · exact Nat.add_lt_add_of_le_of_lt (Finset.card_le_card (h a)) (ih k0 h1 hlt)

theorem mu_le_bound (V : Finset String) :
    ∀ (L : List String) (m : M), (∀ k, m k ⊆ V) → mu L m ≤ L.length * V.card := by
  intro L
  induction L with
  | nil => intro m _; simp [mu]
  | cons a L ih =>
    intro m hm
    have h1 : (m a).card ≤ V.card := Finset.card_le_card (hm a)
    have h2 := ih m hm
    simp only [mu, List.map_cons, List.sum_cons, List.length_cons] at h2 ⊢
    have h3 : (L.length + 1) * V.card = L.length * V.card + V.card := by ring
    omega

theorem firstEntries_flag_false (terms nts : Finset String) :
    ∀ (es : Grammar) (m : M) (ch : Bool), (firstEntries terms nts es m ch).2 = false →
      (firstEntries terms nts es m ch).1 = m ∧ ch = false := by
  intro es
  induction es with
  | nil => intro m ch h; exact ⟨rfl, h⟩
  | cons e es ih =>
    intro m ch h
    simp only [firstEntries] at h ⊢
    obtain ⟨hm, hf⟩ := ih _ _ h
    obtain ⟨hm2, hch⟩ := firstProds_flag_false terms nts e.1 e.2 m ch hf
    exact ⟨hm.trans hm2, hch⟩

theorem firstEntries_flag_true (terms nts : Finset String) (L : List String) :
    ∀ (es : Grammar), (∀ e ∈ es, e.1 ∈ L) → ∀ (m : M) (ch : Bool),
      (firstEntries terms nts es m ch).2 = true →
      ch = true ∨ mu L m < mu L (firstEntries terms nts es m ch).1 := by
  intro es
  induction es with
  | nil => intro _ m ch h; exact Or.inl h
  | cons e es ih =>
    intro hL m ch h
    simp only [firstEntries] at h ⊢
    rcases ih (fun e' he' => hL e' (List.mem_cons_of_mem e he')) _ _ h with hf | hlt
    · rcases firstProds_flag_true terms nts e.1 e.2 m ch hf with hch | hlt2
      · exact Or.inl hch
      · right
        have hmu1 : mu L m < mu L (firstProds terms nts e.1 e.2 m ch).1 :=
          mu_lt m _ (fun k => firstProds_subset terms nts e.1 e.2 m ch k) L e.1
            (hL e (List.mem_cons_self e es)) hlt2
        have hmu2 : mu L (firstProds terms nts e.1 e.2 m ch).1 ≤
            mu L (firstEntries terms nts es (firstProds terms nts e.1 e.2 m ch).1
              (firstProds terms nts e.1 e.2 m ch).2).1 :=
          mu_mono _ _ (fun k => firstEntries_subset terms nts es _ _ k) L
        omega
    · right
      have hmu0 : mu L m ≤ mu L (firstProds terms nts e.1 e.2 m ch).1 :=
        mu_mono _ _ (fun k => firstProds_subset terms nts e.1 e.2 m ch k) L
      omega

theorem scanFirst_inv (terms nts : Finset String) (p nt : String) (V : Finset String)
    (hterms : terms ⊆ V) (heps : "epsilon" ∈ V) :
    ∀ cs (m : M) (ch : Bool), (∀ k, m k ⊆ V) →
      ∀ k, (scanFirst terms nts p nt m ch cs).1 k ⊆ V := by
  intro cs
  induction cs with
  | nil =>
    intro m ch hm k
    by_cases he : "epsilon" ∈ m nt <;> simp [scanFirst, he]
    · exact hm k
    · exact upd_inv m nt _ V hm (Finset.insert_subset_iff.mpr ⟨heps, hm nt⟩) k
  | cons c cs ih =>
    intro m ch hm k
    by_cases h1 : symAt p c ∈ terms
    · by_cases h2 : symAt p c ∈ m nt <;> simp [scanFirst, h1, h2]
      · exact hm k
      · exact upd_inv m nt _ V hm (Finset.insert_subset_iff.mpr ⟨hterms h1, hm nt⟩) k
    · have hinv : ∀ j, firstUpd m nt (symAt p c) j ⊆ V :=
        upd_inv m nt _ V hm
          (Finset.union_subset (hm nt) (Finset.sdiff_subset.trans (hm (symAt p c))))
      by_cases h3 : symAt p c ∈ nts
      · by_cases h4 : "epsilon" ∈ firstUpd m nt (symAt p c) (symAt p c) <;>
          simp only [scanFirst, if_neg h1, if_pos h3, h4, if_true, if_false, ite_true, ite_false]
        · exact ih _ _ hinv k
        · exact hinv k
      · simp only [scanFirst, if_neg h1, if_neg h3]
        exact ih m ch hm k

theorem firstProds_inv (terms nts : Finset String) (nt : String) (V : Finset String)
    (hterms : terms ⊆ V) (heps : "epsilon" ∈ V) :
    ∀ ps (m : M) (ch : Bool), (∀ k, m k ⊆ V) →
      ∀ k, (firstProds terms nts nt ps m ch).1 k ⊆ V := by
  intro ps
  induction ps with
  | nil => intro m ch hm k; exact hm k
  | cons p ps ih =>
    intro m ch hm k
    simp only [firstProds]
    exact ih _ _ (scanFirst_inv terms nts p nt V hterms heps p.data m ch hm) k

theorem firstEntries_inv (terms nts : Finset String) (V : Finset String)
    (hterms : terms ⊆ V) (heps : "epsilon" ∈ V) :
    ∀ (es : Grammar) (m : M) (ch : Bool), (∀ k, m k ⊆ V) →
      ∀ k, (firstEntries terms nts es m ch).1 k ⊆ V := by
  intro es
  induction es with
  | nil => intro m ch hm k; exact hm k
  | cons e es ih =>
    intro m ch hm k
    simp only [firstEntries]
    exact ih _ _ (firstProds_inv terms nts e.1 V hterms heps e.2 m ch hm) k

theorem firstInitProds_inv (terms : Finset String) (nt : String) (V : Finset String)
    (hterms : terms ⊆ V) :
    ∀ ps (m : M), (∀ k, m k ⊆ V) → ∀ k, firstInitProds terms nt ps m k ⊆ V := by
  intro ps
  induction ps with
  | nil => intro m hm k; exact hm k
  | cons p ps ih =>
    intro m hm k
    simp only [firstInitProds]
    apply ih
    cases hp : p.data with
    | nil => exact hm
    | cons c rest =>
      by_cases hc : charStr c ∈ terms <;> simp [hc]
      · exact upd_inv m nt _ V hm (Finset.insert_subset_iff.mpr ⟨hterms hc, hm nt⟩)
      · exact hm

theorem firstInit_inv (terms : Finset String) (V : Finset String) (hterms : terms ⊆ V) :
    ∀ (es : Grammar) (m : M), (∀ k, m k ⊆ V) → ∀ k, firstInit terms es m k ⊆ V := by
  intro es
  induction es with
  | nil => intro m hm k; exact hm k
  | cons e es ih =>
    intro m hm k
    simp only [firstInit]
    exact ih _ (firstInitProds_inv terms e.1 V hterms e.2 m hm) k

theorem firstLoop_flag_false (terms nts : Finset String) (g : Grammar) (V : Finset String)
    (hterms : terms ⊆ V) (heps : "epsilon" ∈ V) :
    ∀ (fuel : Nat) (m : M), (∀ k, m k ⊆ V) →
      (g.map Prod.fst).length * V.card < mu (g.map Prod.fst) m + fuel →
      (firstPass terms nts g (firstLoop terms nts g fuel m)).2 = false := by
  intro fuel
  induction fuel with
  | zero =>
    intro m hm hb
    exact absurd (mu_le_bound V (g.map Prod.fst) m hm) (by omega)
  | succ fuel ih =>
    intro m hm hb
    by_cases hflag : (firstPass terms nts g m).2 = true
    · have hstep : firstLoop terms nts g (fuel + 1) m =
          firstLoop terms nts g fuel (firstPass terms nts g m).1 := by
        simp [firstLoop, hflag]
      rw [hstep]
      apply ih
      · exact firstEntries_inv terms nts V hterms heps g m false hm
      · have hlt : mu (g.map Prod.fst) m < mu (g.map Prod.fst) (firstPass terms nts g m).1 := by
          rcases firstEntries_flag_true terms nts (g.map Prod.fst) g
            (fun e he => List.mem_map_of_mem Prod.fst he) m false hflag with hc | hc
          · cases hc
          · exact hc
        omega
    · have hfalse : (firstPass terms nts g m).2 = false := by
        simpa using hflag
      have hstep : firstLoop terms nts g (fuel + 1) m = (firstPass terms nts g m).1 := by
        simp [firstLoop, hfalse]
      rw [hstep]
      have heq := firstEntries_flag_false terms nts g m false hfalse
      show (firstPass terms nts g (firstEntries terms nts g m false).1).2 = false
      rw [heq.1]
      exact hfalse

/-- C1: for the grammar `{ S -> A B, A -> a | epsilon, B -> b }` with start
symbol `S`, running `first` and then `follow` yields FIRST(A) = {a, epsilon},
FIRST(B) = {b}, FIRST(S) = {a, b}, FOLLOW(A) = {b}, FOLLOW(B) = {$},
FOLLOW(S) = {$}, the mappings compared as sets. -/
theorem c1_example1_first_follow :
    first exampleGrammar1 "A" = {"a", "epsilon"} ∧
    first exampleGrammar1 "B" = {"b"} ∧
    first exampleGrammar1 "S" = {"a", "b"} ∧
    follow exampleGrammar1 (first exampleGrammar1) "A" = {"b"} ∧
    follow exampleGrammar1 (first exampleGrammar1) "B" = {"$"} ∧
    follow exampleGrammar1 (first exampleGrammar1) "S" = {"$"} := by
  refine ⟨by decide, by decide, by decide, by decide, by decide, by decide⟩

/-- C2: on `{ S -> C, A -> B, C -> A c, B -> b }` the code stops after a single
pass — the `changes` flag is guarded by the `None` return value of
`set.update`, so the while loop never repeats — and returns FOLLOW(B) = {},
although FOLLOW(A) = {c} and the production `A -> B` forces FOLLOW(B) ⊇
FOLLOW(A) in the least fixed point of the standard FOLLOW equations: running
one more pass over the returned mapping would still add `c` to FOLLOW(B). -/
theorem c2_follow_single_pass_not_fixed_point :
    follow passGrammar (first passGrammar) "A" = {"c"} ∧
    follow passGrammar (first passGrammar) "B" = ∅ ∧
    followEntries (extract_non_terminals_and_terminals passGrammar).1 (first passGrammar)
      passGrammar (follow passGrammar (first passGrammar)) "B" = {"c"} := by
  refine ⟨by decide, by decide, by decide⟩

/-- C3: on `{ S -> id, I -> i }` the result of `first` is not the one produced
by the left-to-right scan the claim describes: the initialization of main.py
lines 70-73 adds the raw first character `i` of the special token `id` to
FIRST(S) because `i` is a terminal of the grammar, so `first` returns
FIRST(S) = {i, id} while the pure scan fixed point (`first_spec`, following
the spec's §4.2) returns FIRST(S) = {id}. -/
theorem c3_first_scan_violated_by_init :
    first idCharGrammar "S" = {"i", "id"} ∧ first_spec idCharGrammar "S" = {"id"} := by
  refine ⟨by decide, by decide⟩

/-- C5: the scan loop of `first` and the classifier treat a special-token
production atomically — on `{ S -> id }` they yield FIRST(S) = {id} and
FOLLOW(S) = {$} as the claim states — but the initialization of main.py lines
70-73 does not: on `{ S -> epsilon, E -> e }` it adds the raw first character
`e` of `epsilon` to FIRST(S) because `e` is a terminal of the grammar, so
`first` returns FIRST(S) = {e, epsilon} instead of the atomic {epsilon}
(computed by `first_spec`, the scan fixed point of the spec's §4.2). -/
theorem c5_special_token_not_atomic_in_init :
    first epsCharGrammar "S" = {"e", "epsilon"} ∧
    first_spec epsCharGrammar "S" = {"epsilon"} ∧
    first exampleGrammar2 "S" = {"id"} ∧
    follow exampleGrammar2 (first exampleGrammar2) "S" = {"$"} := by
  refine ⟨by decide, by decide, by decide, by decide⟩

/-- C6: on `{ S -> X }`, whose production references the undeclared
non-terminal `X`, the computation does not fail: `first` silently skips the
unclassified symbol, reaches the end of the production and returns
FIRST(S) = {epsilon}, never populating a key for `X`, and `follow` silently
returns FOLLOW(S) = {$}. -/
theorem c6_undeclared_reference_no_failure :
    first undeclaredGrammar "S" = {"epsilon"} ∧
    first undeclaredGrammar "X" = ∅ ∧
    follow undeclaredGrammar (first undeclaredGrammar) "S" = {"$"} := by
  refine ⟨by decide, by decide, by decide⟩

/-- C7: `follow` initializes every non-terminal's FOLLOW set to empty except
the start symbol — the first declared non-terminal — which is seeded with
`{$}` (main.py lines 113-115, on a non-empty grammar, where `next(iter(...))`
is defined), and the returned FOLLOW mapping always maps the start symbol to a
set containing `$`. -/
theorem c7_start_symbol_seed (g : Grammar) (firsts : M) (_hg : g ≠ []) :
    (followInit g (start_symbol g) = {"$"} ∧
      ∀ nt, nt ≠ start_symbol g → followInit g nt = ∅) ∧
    "$" ∈ follow g firsts (start_symbol g) := by
  refine ⟨⟨by simp [followInit, upd], fun nt hnt => by simp [followInit, upd, hnt]⟩, ?_⟩
  rw [follow_eq_pass]
  apply followEntries_subset _ firsts g (followInit g) (followInit_epsFree g) (start_symbol g)
  simp [followInit, upd]

theorem c7_start_symbol_seed_witness :
    ((followInit exampleGrammar1 (start_symbol exampleGrammar1) = {"$"} ∧
       ∀ nt, nt ≠ start_symbol exampleGrammar1 → followInit exampleGrammar1 nt = ∅) ∧
     "$" ∈ follow exampleGrammar1 (first exampleGrammar1) (start_symbol exampleGrammar1)) :=
  c7_start_symbol_seed exampleGrammar1 (first exampleGrammar1) (by decide)

/-- C8: at every step of either fixed-point computation the tracked sets only
grow: one production scan of `first` and a whole pass of `first` extend every
FIRST set pointwise, and — on the epsilon-free states `follow` actually
reaches, its initial state being epsilon-free and every step preserving that —
one occurrence scan of `follow` and a whole pass of `follow` extend every
FOLLOW set pointwise. -/
theorem c8_monotone_growth (terms nts : Finset String) (g : Grammar) (p nt k : String)
    (cs : List Char) (m fl firsts : M) (ch : Bool) (hfl : ∀ j, "epsilon" ∉ fl j) :
    m k ⊆ (scanFirst terms nts p nt m ch cs).1 k ∧
    m k ⊆ (firstPass terms nts g m).1 k ∧
    fl k ⊆ followScan nts firsts nt fl cs k ∧
    fl k ⊆ (followPass nts firsts g fl).1 k :=
  ⟨scanFirst_subset terms nts p nt cs m ch k,
   firstEntries_subset terms nts g m false k,
   followScan_subset nts firsts nt cs fl hfl k,
   followEntries_subset nts firsts g fl hfl k⟩

theorem c8_monotone_growth_witness :
    (fun _ => (∅ : Finset String)) "S" ⊆
        (scanFirst {"a"} {"S"} "AB" "S" (fun _ => ∅) false ['A']).1 "S" ∧
    (fun _ => (∅ : Finset String)) "S" ⊆
        (firstPass {"a"} {"S"} exampleGrammar1 (fun _ => ∅)).1 "S" ∧
    followInit exampleGrammar1 "S" ⊆
        followScan {"S"} (first exampleGrammar1) "S" (followInit exampleGrammar1) ['A'] "S" ∧
    followInit exampleGrammar1 "S" ⊆
        (followPass {"S"} (first exampleGrammar1) exampleGrammar1 (followInit exampleGrammar1)).1
          "S" :=
  c8_monotone_growth {"a"} {"S"} exampleGrammar1 "AB" "S" "S" ['A'] (fun _ => ∅)
    (followInit exampleGrammar1) (first exampleGrammar1) false (followInit_epsFree exampleGrammar1)

/-- C10: for every grammar and every FIRST mapping, no set returned by `follow`
contains `epsilon`: every copy of a FIRST set into a FOLLOW set is immediately
followed by the removal of `epsilon` (main.py lines 131-132), and no other step
introduces it. -/
theorem c10_follow_epsilon_free (g : Grammar) (firsts : M) (nt : String) :
    "epsilon" ∉ follow g firsts nt := by
  rw [follow_eq_pass]
  exact followEntries_epsFree _ firsts g (followInit g) (followInit_epsFree g) nt

theorem mem_extractProd (nts : Finset String) (p : String) :
    ∀ cs (ts : Finset String) (t : String),
      t ∈ extractProd nts p cs ts ↔ t ∈ ts ∨
        ∃ c ∈ cs, (p ∈ special_symbols ∧ t = p) ∨
          (p ∉ special_symbols ∧ charStr c ∉ nts ∧ c.isUpper = false ∧ t = charStr c) := by
  intro cs
  induction cs with
  | nil => intro ts t; simp [extractProd]
  | cons c cs ih =>
    intro ts t
    simp only [extractProd]
    rw [ih]
    by_cases hsp : p ∈ special_symbols
    · simp only [hsp, if_true, ite_true, Finset.mem_insert, List.mem_cons, exists_eq_or_imp,
        not_true, false_and, or_false, true_and]
      tauto
    · by_cases hc : charStr c ∉ nts ∧ c.isUpper = false
      · simp only [hsp, if_false, ite_false, hc, if_true, ite_true, Finset.mem_insert,
          List.mem_cons, exists_eq_or_imp, not_false_iff, true_and, false_and, false_or]
        tauto
      · simp only [hsp, if_false, ite_false, hc, List.mem_cons, exists_eq_or_imp,
          not_false_iff, true_and, false_and, false_or]
        tauto

theorem mem_extractProds (nts : Finset String) :
    ∀ ps (ts : Finset String) (t : String),
      t ∈ extractProds nts ps ts ↔ t ∈ ts ∨
        ∃ p ∈ ps, ∃ c ∈ p.data, (p ∈ special_symbols ∧ t = p) ∨
          (p ∉ special_symbols ∧ charStr c ∉ nts ∧ c.isUpper = false ∧ t = charStr c) := by
  intro ps
  induction ps with
  | nil => intro ts t; simp [extractProds]
  | cons p ps ih =>
    intro ts t
    simp only [extractProds]
    rw [ih, mem_extractProd, or_assoc]
    apply or_congr_right
    constructor
    · rintro (hB | ⟨p', hp', hc⟩)
      · exact ⟨p, List.mem_cons_self p ps, hB⟩
      · exact ⟨p', List.mem_cons_of_mem p hp', hc⟩
    · rintro ⟨p', hp', hc⟩
      rcases List.mem_cons.mp hp' with h1 | h1
      · subst h1; exact Or.inl hc
      · exact Or.inr ⟨p', h1, hc⟩

theorem mem_extractEntries (nts : Finset String) :
    ∀ (g : Grammar) (ts : Finset String) (t : String),
      t ∈ extractEntries nts g ts ↔ t ∈ ts ∨
        ∃ e ∈ g, ∃ p ∈ e.2, ∃ c ∈ p.data, (p ∈ special_symbols ∧ t = p) ∨
          (p ∉ special_symbols ∧ charStr c ∉ nts ∧ c.isUpper = false ∧ t = charStr c) := by
  intro g
  induction g with
  | nil => intro ts t; simp [extractEntries]
  | cons e es ih =>
    intro ts t
    simp only [extractEntries]
    rw [ih, mem_extractProds, or_assoc]
    apply or_congr_right
    constructor
    · rintro (hB | ⟨e', he', hc⟩)
      · exact ⟨e, List.mem_cons_self e es, hB⟩
      · exact ⟨e', List.mem_cons_of_mem e he', hc⟩
    · rintro ⟨e', he', hc⟩
      rcases List.mem_cons.mp he' with h1 | h1
      · subst h1; exact Or.inl hc
      · exact Or.inr ⟨e', h1, hc⟩

theorem special_data_ne_nil (p : String) (h : p ∈ special_symbols) : p.data ≠ [] := by
  simp only [special_symbols, Finset.mem_insert, Finset.mem_singleton] at h
  rcases h with h | h | h | h | h | h | h <;> subst h <;> decide

/-- C4: the classifier returns non-terminals equal to the grammar's key set,
and terminals equal to exactly those symbols appearing in some production —
the production itself being the one symbol when it is a special token, its
individual characters otherwise — that either (a) match one of the fixed
special tokens epsilon, id, or, not, and, true, false, or (b) are neither a
declared non-terminal nor uppercase. -/
theorem c4_classifier_characterization (g : Grammar) (t : String) :
    (extract_non_terminals_and_terminals g).1 = keyFinset g ∧
    (t ∈ (extract_non_terminals_and_terminals g).2 ↔
      ∃ e ∈ g, ∃ p ∈ e.2,
        (p ∈ special_symbols ∧ t = p) ∨
        (p ∉ special_symbols ∧
          ∃ c ∈ p.data, charStr c ∉ keyFinset g ∧ c.isUpper = false ∧ t = charStr c)) := by
  refine ⟨rfl, ?_⟩
  have hmem := mem_extractEntries (keyFinset g) g ∅ t
  simp only [Finset.not_mem_empty, false_or] at hmem
  rw [show (extract_non_terminals_and_terminals g).2 = extractEntries (keyFinset g) g ∅ from rfl,
    hmem]
  constructor
  · rintro ⟨e, he, p, hp, c, hc, hcond⟩
    rcases hcond with ⟨hsp, ht⟩ | ⟨hsp, h1, h2, ht⟩
    · exact ⟨e, he, p, hp, Or.inl ⟨hsp, ht⟩⟩
    · exact ⟨e, he, p, hp, Or.inr ⟨hsp, c, hc, h1, h2, ht⟩⟩
  · rintro ⟨e, he, p, hp, hcond⟩
    rcases hcond with ⟨hsp, ht⟩ | ⟨hsp, c, hc, h1, h2, ht⟩
    · obtain ⟨c, hc⟩ := List.exists_mem_of_ne_nil _ (special_data_ne_nil p hsp)
      exact ⟨e, he, p, hp, c, hc, Or.inl ⟨hsp, ht⟩⟩
    · exact ⟨e, he, p, hp, c, hc, Or.inr ⟨hsp, h1, h2, ht⟩⟩

/-- C9: both fixed-point loops terminate.  The loop of `first` reaches a pass
that reports no change within its fuel — each tracked set only grows and stays
inside the finite vocabulary `terminals ∪ {epsilon}`, and a changing pass
strictly grows the total size — so the returned mapping is exactly where the
`while changes` loop exits; the loop of `follow` exits after its first pass,
whose `changes` flag is never set. -/
theorem c9_loops_terminate (g : Grammar) (firsts : M) :
    (firstPass (extract_non_terminals_and_terminals g).2
      (extract_non_terminals_and_terminals g).1 g (first g)).2 = false ∧
    (followPass (extract_non_terminals_and_terminals g).1 firsts g (follow g firsts)).2
      = false := by
  constructor
  · unfold first
    apply firstLoop_flag_false _ _ g
      (insert "epsilon" (extract_non_terminals_and_terminals g).2)
      (Finset.subset_insert _ _) (Finset.mem_insert_self _ _)
    · exact firstInit_inv (extract_non_terminals_and_terminals g).2 _
        (Finset.subset_insert _ _) g (fun _ => ∅) (fun _ => Finset.empty_subset _)
    · have hlen : (g.map Prod.fst).length = g.length := List.length_map _ _
      simp only [firstFuel]
      rw [hlen]
      omega
  · rfl

end GLC
